import Mathlib

/-!
Verification of the extraction-and-dedup pipeline of the scraper
(`src/app/storage.py`, `src/app/link_collect.py`, `src/app/extract.py`).

The Python code is shallowly embedded: every function below mirrors the
corresponding Python function (stdlib helpers from `urllib.parse` and
`posixpath` included), with Python strings modelled as Lean `String`
(`List Char` underneath).  Fallible code (`urlsplit` may raise
`ValueError`) is modelled with `Except String`.  Nondeterministic
environment inputs (`uuid4()`, `datetime.now()`) are supplied as an
explicit stream parameter.  `Char.toLower` agrees with Python's
`str.lower` on ASCII; all concrete inputs used below are ASCII.
-/

set_option maxRecDepth 8192

namespace SSApp

deriving instance DecidableEq for Except

/-! ## Python string primitives -/

/-- Python `s.lower()` (exact on ASCII, which covers every use below). -/
def pyLower (s : String) : String :=
  String.mk (s.data.map Char.toLower)

/-- Python `s.lstrip(chars)`: remove every leading character that occurs in
`chars` (a character *set*, not a prefix). -/
def pyLstrip (s chars : String) : String :=
  String.mk (s.data.dropWhile (fun c => chars.data.contains c))

/-- Python `s.rstrip(chars)`: remove every trailing character that occurs in
`chars`. -/
def pyRstrip (s chars : String) : String :=
  String.mk ((s.data.reverse.dropWhile (fun c => chars.data.contains c)).reverse)

/-- Python `s.split(sep)[0]`, i.e. everything before the first occurrence of
the single-character separator `sep` (the whole string when absent). -/
def pySplitFirst (s : String) (sep : Char) : String :=
  String.mk (s.data.takeWhile (fun c => c ≠ sep))

/-- Python `s.startswith(p)`.  (Implemented over the character lists so that
the kernel can evaluate it; `String.startsWith` hides a well-founded loop.) -/
def pyStartsWith (s p : String) : Bool :=
  p.data.isPrefixOf s.data

/-- Python `s.endswith(p)`. -/
def pyEndsWith (s p : String) : Bool :=
  p.data.isSuffixOf s.data

/-- Python `s[n:]` (by code points, as in Python). -/
def pyDrop (s : String) (n : Nat) : String :=
  String.mk (s.data.drop n)

/-- Python `s.split(sep)` for a one-character separator: `""` gives `[""]`,
adjacent separators give empty chunks. -/
def splitOnChar (sep : Char) : List Char → List (List Char)
  | [] => [[]]
  | c :: rest =>
    if c = sep then [] :: splitOnChar sep rest
    else
      match splitOnChar sep rest with
      | [] => [[c]]
      | g :: gs => (c :: g) :: gs

/-- Python `sep.join(parts)`. -/
def joinWith (sep : String) (parts : List String) : String :=
  String.mk (List.intercalate sep.data (parts.map String.data))

/-! ## Record store (`src/app/storage.py`) -/

/-- The `Record` dataclass of `src/app/storage.py`.  `id` and
`timestamp_utc` are opaque strings produced by `uuid4()` /
`datetime.now(timezone.utc).isoformat()`. -/
structure Record where
  id : String
  email : String
  journal : String := ""
  topic : Option String := none
  verified : String := "unknown"
  duplicate : Bool := false
  source_url : String := ""
  timestamp_utc : String := ""
deriving DecidableEq, Repr

/-- The caller-supplied `meta: Dict[str, str]`: which of the three keys the
dictionary holds, and their values.  `meta.get("journal", "")` is
`(journal.getD "")`; `meta.get("topic")` is `topic` itself (absent key gives
Python `None`). -/
structure Meta where
  journal : Option String := none
  topic : Option String := none
  source_url : Option String := none
deriving DecidableEq, Repr

/-- The mutable state of `Store`: full history (`self.records`) and the seen
set (`self._seen`, a Python `set[str]` modelled as a duplicate-free list; only
membership and insertion are used). -/
structure Store where
  records : List Record
  seen : List String
deriving DecidableEq, Repr

/-- `Store()` — empty history and empty seen set. -/
def Store.empty : Store := ⟨[], []⟩

/-- The loop body of `Store.add_records`, processing the e-mails in order.
`fresh n` supplies the pair (`uuid4()`, `now().isoformat()`) drawn when the
history has length `n`.  Returns the "newly added" list together with the
updated store.  Mirrors `src/app/storage.py` lines 29-49: the duplicate flag
is `email in self._seen` (note: the *raw* e-mail, no lower-casing), the seen
set is extended only for non-duplicates, every record is appended to the
history, and only non-duplicates are returned. -/
def addRecordsGo (m : Meta) (fresh : Nat → String × String) :
    List String → Store → List Record × Store
  | [], s => ([], s)
  | email :: rest, s =>
    let duplicate := decide (email ∈ s.seen)
    let seen' := if email ∈ s.seen then s.seen else email :: s.seen
    let r : Record :=
      { id := (fresh s.records.length).1
        email := email
        journal := m.journal.getD ""
        topic := m.topic
        verified := "unknown"
        duplicate := duplicate
        source_url := m.source_url.getD ""
        timestamp_utc := (fresh s.records.length).2 }
    let s' : Store := ⟨s.records ++ [r], seen'⟩
    let res := addRecordsGo m fresh rest s'
    (if email ∈ s.seen then res.1 else r :: res.1, res.2)

/-- `Store.add_records(self, emails, meta=None)`.  `meta = meta or {}` is the
`Option.getD` below (Python `None` and the empty dict behave identically:
every `get` misses). -/
def Store.add_records (s : Store) (emails : List String) (meta : Option Meta)
    (fresh : Nat → String × String) : List Record × Store :=
  addRecordsGo (meta.getD {}) fresh emails s

/-- `Store.clear`. -/
def Store.clear (_ : Store) : Store := Store.empty

/-! ## `urllib.parse.urlsplit` (CPython)

The embedding follows CPython's `urllib/parse.py`: leading WHATWG C0
control/space characters are stripped, every tab/CR/LF is removed, the
scheme is recognised only when the text before the first `:` starts with an
ASCII letter and uses scheme characters only, the authority is everything
between `//` and the first of `/?#`, an authority holding `[` without `]`
(or vice versa) raises `ValueError("Invalid IPv6 URL")`, the fragment is
split off at the first `#` and the query at the first `?`.  CPython's
`_checknetloc` never raises on an all-ASCII authority; for non-ASCII
authorities it applies an NFKC-based check, conservatively modelled here as
a rejection — every theorem below exercising it restricts to ASCII input. -/

/-- Characters allowed in a URL scheme after the initial letter. -/
def isSchemeChar (c : Char) : Bool :=
  c.isAlpha || c.isDigit || c == '+' || c == '-' || c == '.'

/-- `SplitResult` (scheme, netloc, path, query, fragment). -/
structure SplitResult where
  scheme : String
  netloc : String
  path : String
  query : String
  fragment : String
deriving DecidableEq, Repr

/-- Scheme recognition of `urlsplit`: `i = url.find(':')`; the scheme exists
when `i > 0`, `url[0]` is an ASCII letter and all of `url[:i]` are scheme
characters; it is lower-cased, the rest follows the colon. -/
def splitScheme (cs : List Char) : List Char × List Char :=
  let pre := cs.takeWhile (fun c => c ≠ ':')
  if pre.length > 0 && pre.length < cs.length &&
      (pre.headD ' ').isAlpha && pre.all isSchemeChar then
    (pre.map Char.toLower, cs.drop (pre.length + 1))
  else
    ([], cs)

/-- `_splitnetloc(url, 2)`: the authority runs to the first `/`, `?` or `#`
(CPython computes the minimum of the three `find` results, which is exactly
this `takeWhile` boundary). -/
def isNetlocEnd (c : Char) : Bool := c == '/' || c == '?' || c == '#'

/-- Split at the first occurrence of `sep`: (before, after); `after` is
empty also when `sep` is absent (the two cases coincide for every use in
`urlsplit`, whose callers only discard or keep the pieces). -/
def splitOnceChar (cs : List Char) (sep : Char) : List Char × List Char :=
  let before := cs.takeWhile (fun c => c ≠ sep)
  (before, cs.drop (before.length + 1))

/-- `urllib.parse.urlsplit` with `allow_fragments=True`. -/
def urlsplit (url : String) : Except String SplitResult :=
  let cs := ((url.data.dropWhile (fun c => c.toNat ≤ 32)).filter
    (fun c => c ≠ '\t' && c ≠ '\r' && c ≠ '\n'))
  let sp := splitScheme cs
  let scheme := sp.1
  let rest := sp.2
  if rest.take 2 = ['/', '/'] then
    let netloc := (rest.drop 2).takeWhile (fun c => !isNetlocEnd c)
    let rest2 := (rest.drop 2).dropWhile (fun c => !isNetlocEnd c)
    if ('[' ∈ netloc ∧ ']' ∉ netloc) ∨ (']' ∈ netloc ∧ '[' ∉ netloc) then
      .error "Invalid IPv6 URL"
    else if '[' ∈ netloc ∧ ']' ∈ netloc then
      -- `_check_bracketed_host`: CPython accepts only a valid IPv6/IPvFuture
      -- literal between the brackets and raises otherwise.  The IPv6 grammar
      -- is conservatively modelled as a rejection: no claim concerns
      -- bracketed authorities, and every theorem below either excludes
      -- brackets by hypothesis or never reaches this branch.
      .error "bracketed host"
    else if ¬ ∀ c ∈ netloc, c.toNat < 128 then
      .error "netloc contains invalid characters"
    else
      let fr := splitOnceChar rest2 '#'
      let qy := splitOnceChar fr.1 '?'
      .ok ⟨String.mk scheme, String.mk netloc, String.mk qy.1,
           String.mk qy.2, String.mk fr.2⟩
  else
    let fr := splitOnceChar rest '#'
    let qy := splitOnceChar fr.1 '?'
    .ok ⟨String.mk scheme, "", String.mk qy.1, String.mk qy.2, String.mk fr.2⟩

/-! ## `posixpath.normpath` -/

/-- The component-folding loop of `posixpath.normpath`. -/
def normpathComps (initialSlashes : Nat) (comps : List String) : List String :=
  comps.foldl
    (fun acc comp =>
      if comp = "" || comp = "." then acc
      else if comp ≠ ".." || (initialSlashes = 0 && acc.isEmpty) ||
          acc.getLast? = some ".." then acc ++ [comp]
      else if !acc.isEmpty then acc.dropLast
      else acc)
    []

/-- `posixpath.normpath` for `str` paths. -/
def normpath (path : String) : String :=
  if path = "" then "." else
  let initialSlashes : Nat :=
    if path.data.take 1 = ['/'] then
      if path.data.take 2 = ['/', '/'] && path.data.take 3 ≠ ['/', '/', '/']
      then 2 else 1
    else 0
  let comps := (splitOnChar '/' path.data).map String.mk
  let joined := joinWith "/" (normpathComps initialSlashes comps)
  let path' := String.mk (List.replicate initialSlashes '/') ++ joined
  if path' = "" then "." else path'

/-! ## Percent-coding (`unquote` / `quote_plus`) -/

/-- Value of a hexadecimal digit character (code points 0-9, a-f, A-F). -/
def hexDigit (c : Char) : Option Nat :=
  let n := c.toNat
  if 48 ≤ n ∧ n ≤ 57 then some (n - 48)
  else if 97 ≤ n ∧ n ≤ 102 then some (n - 87)
  else if 65 ≤ n ∧ n ≤ 70 then some (n - 55)
  else none

/-- UTF-8 bytes of one character. -/
def utf8Bytes (c : Char) : List Nat :=
  let n := c.toNat
  if n < 0x80 then [n]
  else if n < 0x800 then [0xC0 + n / 64, 0x80 + n % 64]
  else if n < 0x10000 then [0xE0 + n / 4096, 0x80 + n / 64 % 64, 0x80 + n % 64]
  else [0xF0 + n / 262144, 0x80 + n / 4096 % 64, 0x80 + n / 64 % 64, 0x80 + n % 64]

/-- `unquote_to_bytes`: each valid `%XY` escape becomes the byte `XY`; an
invalid escape keeps the literal `%`; other characters contribute their
UTF-8 bytes. -/
def pctDecodeBytes : List Char → List Nat
  | [] => []
  | '%' :: a :: b :: rest =>
    match hexDigit a, hexDigit b with
    | some x, some y => (16 * x + y) :: pctDecodeBytes rest
    | _, _ => utf8Bytes '%' ++ pctDecodeBytes (a :: b :: rest)
  | '%' :: rest => utf8Bytes '%' ++ pctDecodeBytes rest
  | c :: rest => utf8Bytes c ++ pctDecodeBytes rest

/-- Is `b` a UTF-8 continuation byte within `[lo, hi]`? -/
def isCont (lo hi b : Nat) : Bool := lo ≤ b && b ≤ hi

/-- UTF-8 decoding with U+FFFD substitution of maximal invalid subparts
(`bytes.decode("utf-8", "replace")`). -/
def utf8Decode : List Nat → List Char
  | [] => []
  | b :: rest =>
    if b < 0x80 then
      Char.ofNat b :: utf8Decode rest
    else if 0xC2 ≤ b && b ≤ 0xDF then
      match h1 : rest with
      | c1 :: rest' =>
        if isCont 0x80 0xBF c1 then
          Char.ofNat ((b - 0xC0) * 64 + (c1 - 0x80)) :: utf8Decode rest'
        else '�' :: utf8Decode rest
      | [] => ['�']
    else if 0xE0 ≤ b && b ≤ 0xEF then
      match h1 : rest with
      | c1 :: rest' =>
        let lo1 := if b = 0xE0 then 0xA0 else 0x80
        let hi1 := if b = 0xED then 0x9F else 0xBF
        if isCont lo1 hi1 c1 then
          match h2 : rest' with
          | c2 :: rest'' =>
            if isCont 0x80 0xBF c2 then
              Char.ofNat ((b - 0xE0) * 4096 + (c1 - 0x80) * 64 + (c2 - 0x80)) ::
                utf8Decode rest''
            else '�' :: utf8Decode rest'
          | [] => ['�']
        else '�' :: utf8Decode rest
      | [] => ['�']
    else if 0xF0 ≤ b && b ≤ 0xF4 then
      match h1 : rest with
      | c1 :: rest' =>
        let lo1 := if b = 0xF0 then 0x90 else 0x80
        let hi1 := if b = 0xF4 then 0x8F else 0xBF
        if isCont lo1 hi1 c1 then
          match h2 : rest' with
          | c2 :: rest'' =>
            if isCont 0x80 0xBF c2 then
              match h3 : rest'' with
              | c3 :: rest3 =>
                if isCont 0x80 0xBF c3 then
                  Char.ofNat ((b - 0xF0) * 262144 + (c1 - 0x80) * 4096 +
                    (c2 - 0x80) * 64 + (c3 - 0x80)) :: utf8Decode rest3
                else '�' :: utf8Decode rest''
              | [] => ['�']
            else '�' :: utf8Decode rest'
          | [] => ['�']
        else '�' :: utf8Decode rest
      | [] => ['�']
    else '�' :: utf8Decode rest
termination_by bs => bs.length
decreasing_by all_goals simp_all [List.length_cons] <;> omega

/-- `urllib.parse.unquote` with UTF-8 / `replace`. -/
def pyUnquote (s : String) : String :=
  String.mk (utf8Decode (pctDecodeBytes s.data))

/-- Characters `quote` never escapes (`ALWAYS_SAFE`; `urlencode` passes
`safe=''`). -/
def isAlwaysSafe (c : Char) : Bool :=
  c.isAlpha || c.isDigit || c == '_' || c == '.' || c == '-' || c == '~'

/-- Upper-case hexadecimal digit. -/
def hexUpper (n : Nat) : Char :=
  if n < 10 then Char.ofNat ('0'.toNat + n) else Char.ofNat ('A'.toNat + n - 10)

/-- `quote_plus(s, safe='')`: spaces become `+`, unreserved characters stay,
everything else is `%XX`-encoded over its UTF-8 bytes. -/
def quote_plus (s : String) : String :=
  String.mk (s.data.flatMap (fun c =>
    if isAlwaysSafe c then [c]
    else if c = ' ' then ['+']
    else (utf8Bytes c).flatMap (fun b => ['%', hexUpper (b / 16), hexUpper (b % 16)])))

/-! ## `parse_qsl` / `urlencode` -/

/-- One `name=value` chunk of `parse_qsl` with `keep_blank_values=True`:
split at the first `=` (missing `=` gives an empty value), turn `+` into
spaces, percent-decode both sides. -/
def parseQslPair (nameValue : String) : String × String :=
  let nv := splitOnceChar nameValue.data '='
  let name := String.mk (nv.1.map (fun c => if c = '+' then ' ' else c))
  let value := String.mk (nv.2.map (fun c => if c = '+' then ' ' else c))
  (pyUnquote name, pyUnquote value)

/-- `urllib.parse.parse_qsl(qs, keep_blank_values=True)` (separator `&`;
empty chunks are skipped). -/
def parse_qsl (qs : String) : List (String × String) :=
  ((splitOnChar '&' qs.data).map String.mk).filterMap (fun nameValue =>
    if nameValue = "" then none else some (parseQslPair nameValue))

/-- `urllib.parse.urlencode(query, doseq=True)` on string pairs. -/
def urlencode (query : List (String × String)) : String :=
  joinWith "&" (query.map (fun kv => quote_plus kv.1 ++ "=" ++ quote_plus kv.2))

/-- `urllib.parse.uses_netloc`. -/
def uses_netloc : List String :=
  ["", "ftp", "http", "gopher", "nntp", "telnet", "imap", "wais", "file",
   "mms", "https", "shttp", "snews", "prospero", "rtsp", "rtsps", "rtspu",
   "rsync", "svn", "svn+ssh", "sftp", "nfs", "git", "git+ssh", "ws", "wss"]

/-- `urllib.parse.urlunsplit` (the fragment is always empty at the one call
site, `normalize_url`). -/
def urlunsplit (scheme netloc path query : String) : String :=
  let url := path
  let url :=
    if netloc ≠ "" ||
        (scheme ≠ "" && uses_netloc.contains scheme &&
          decide (url.data.take 2 ≠ ['/', '/'])) then
      "//" ++ netloc ++
        (if url ≠ "" && decide (url.data.take 1 ≠ ['/']) then "/" ++ url else url)
    else url
  let url := if scheme ≠ "" then scheme ++ ":" ++ url else url
  if query ≠ "" then url ++ "?" ++ query else url

/-! ## `src/app/link_collect.py` -/

/-- `TRACKER_KEYS = {"fbclid", "gclid"}`. -/
def TRACKER_KEYS : List String := ["fbclid", "gclid"]

/-- `normalize_url` of `src/app/link_collect.py` (lines 13-30).  The
`ValueError` that `urlsplit` may raise propagates to the caller, hence the
`Except`. -/
def normalize_url (url : String) : Except String String := do
  let parts ← urlsplit url
  let s0 := pyLower parts.scheme
  let scheme := if s0 = "" then "https" else s0
  let n0 := pyLower parts.netloc
  let netloc := if pyStartsWith n0 "www." then pyDrop n0 4 else n0
  let path := normpath (if parts.path = "" then "/" else parts.path)
  let query := (parse_qsl parts.query).filter
    (fun kv => !pyStartsWith kv.1 "utm_" && !TRACKER_KEYS.contains kv.1)
  let normalized := urlunsplit scheme netloc path (urlencode query)
  if pyEndsWith normalized "/" && path ≠ "/" then
    pure (pyRstrip normalized "/")
  else
    pure normalized

/-- `same_host` of `src/app/link_collect.py` (lines 33-42).  Note the
source's `allowed.lower().lstrip("www.")`: `lstrip` removes leading
characters drawn from the set `{'w', '.'}`, not the four-character
`"www."` leader. -/
def same_host (url : String) (allowed_hosts : List String) : Except String Bool := do
  let parts ← urlsplit url
  let h0 := pyLower parts.netloc
  let host := if pyStartsWith h0 "www." then pyDrop h0 4 else h0
  pure (allowed_hosts.any (fun allowed =>
    let a := pyLstrip (pyLower allowed) "www."
    host == a || pyEndsWith host ("." ++ a)))

/-- The anchor loop of `collect_links_qt` (lines 57-64): normalize each
href, keep it when `same_host` passes, add it to the link set (modelled as
an insertion-ordered duplicate-free list; the theorems below use only
order-independent properties, as Python's `set` iteration order is
unspecified), and stop as soon as the set's size reaches `limit`. -/
def collectGo (limit : Int) (allowed : List String) :
    List String → List String → Except String (List String)
  | [], links => .ok links
  | href :: rest, links => do
    let url ← normalize_url href
    let b ← same_host url allowed
    if b then
      let links' := if url ∈ links then links else links ++ [url]
      if (links'.length : Int) ≥ limit then .ok links'
      else collectGo limit allowed rest links'
    else collectGo limit allowed rest links

/-- `collect_links_qt` after HTML parsing: the input list holds the `href`
of every `<a href=...>` in document order (`soup.find_all("a", href=True)`). -/
def collect_links_from_hrefs (hrefs : List String) (limit : Int)
    (allowed : List String) : Except String (List String) :=
  collectGo limit allowed hrefs []

/-- `collect_links_qt` (lines 45-65).  The HTML fetch from the Qt view sits
in a `try/except Exception: pass` with `html` pre-set to `""`; `fetched`
models the fetch outcome and `anchorHrefs` models BeautifulSoup's anchor
extraction from an HTML string. -/
def collect_links_qt (fetched : Except Unit String)
    (anchorHrefs : String → List String) (limit : Int)
    (allowed : List String) : Except String (List String) :=
  let html := match fetched with
    | .error _ => ""
    | .ok h => h
  collect_links_from_hrefs (anchorHrefs html) limit allowed

/-! ## `src/app/extract.py`

`EMAIL_REGEX = [a-zA-Z0-9._%+-]+@[a-zA-Z0-9.-]+\.[A-Za-z]{2,}` (Python
`re`, ASCII classes).  `fullmatch` membership is decided directly from the
regular language; `finditer` is implemented with the engine's leftmost
scan and greedy backtracking, which for this pattern reduces to: maximal
local-part run (no backtracking, since `@` is not a local character),
literal `@`, then the largest dot split of the maximal domain-character run
that leaves at least two letters after the dot, the trailing letter run
taken maximally. -/

/-- `[a-zA-Z0-9._%+-]`. -/
def isLocalChar (c : Char) : Bool :=
  c.isAlpha || c.isDigit || c == '.' || c == '_' || c == '%' || c == '+' || c == '-'

/-- `[a-zA-Z0-9.-]`. -/
def isDomChar (c : Char) : Bool :=
  c.isAlpha || c.isDigit || c == '.' || c == '-'

/-- `EMAIL_REGEX.fullmatch(s)` as a language-membership test: exactly one
`@` (neither class contains it), a non-empty all-local-character part
before it, and after it a non-empty domain-character run, a dot, and at
least two letters reaching the end of the string. -/
def emailFullmatch (s : String) : Bool :=
  match splitOnChar '@' s.data with
  | [l, d] =>
    !l.isEmpty && l.all isLocalChar &&
    (List.range d.length).any (fun k =>
      decide (1 ≤ k) && (d.take k).all isDomChar &&
      d.getD k ' ' == '.' &&
      decide (2 ≤ (d.drop (k + 1)).length) &&
      (d.drop (k + 1)).all Char.isAlpha)
  | _ => false

/-- Length of the maximal letter run at the front. -/
def letterRunLen (cs : List Char) : Nat := (cs.takeWhile Char.isAlpha).length

/-- Greedy backtracking of `[a-zA-Z0-9.-]+\.`: the largest `k` such that
the `k` domain characters are followed by a dot and at least two letters. -/
def findDotSplit (dom : List Char) : Option Nat :=
  (List.range dom.length).reverse.findSome? (fun k =>
    if 1 ≤ k && dom.getD k ' ' == '.' && 2 ≤ letterRunLen (dom.drop (k + 1))
    then some k else none)

/-- One match attempt of `EMAIL_REGEX` anchored at the front of `cs`:
`some (match, rest)` on success. -/
def tryMatch (cs : List Char) : Option (List Char × List Char) :=
  let loc := cs.takeWhile isLocalChar
  if loc.isEmpty then none else
  match cs.drop loc.length with
  | '@' :: r2 =>
    let dom := r2.takeWhile isDomChar
    match findDotSplit dom with
    | some k =>
      let tail := dom.drop (k + 1)
      let m := letterRunLen tail
      some (loc ++ '@' :: (dom.take k ++ '.' :: tail.take m),
            tail.drop m ++ r2.drop dom.length)
    | none => none
  | _ => none

/-- `EMAIL_REGEX.finditer`: leftmost non-overlapping matches; on failure the
scan advances one character.  Each match consumes at least one character, so
`text.length` steps of fuel always suffice. -/
def finditerGo : Nat → List Char → List (List Char)
  | 0, _ => []
  | _, [] => []
  | fuel + 1, c :: rest =>
    match tryMatch (c :: rest) with
    | some (m, r) => m :: finditerGo fuel r
    | none => finditerGo fuel rest

/-- All `EMAIL_REGEX` matches in `text`, in order. -/
def findall_emails (text : String) : List String :=
  (finditerGo text.data.length text.data).map (fun m => String.mk m)

/-- `_dedup` of `src/app/extract.py`: lower-case each entry, keep the first
occurrence of each lower-cased value. -/
def dedupGo (seen : List String) : List String → List String
  | [] => []
  | e :: rest =>
    let e' := pyLower e
    if e' ∈ seen then dedupGo seen rest
    else e' :: dedupGo (e' :: seen) rest

/-- `_dedup(emails)`. -/
def dedup (emails : List String) : List String := dedupGo [] emails

/-- The `mailto:` pass of `extract_emails_from_html`: anchors whose `href`
starts with `mailto` (the CSS selector `a[href^=mailto]`), sliced past the
seven characters `mailto:`, truncated at the first `?`, kept when the whole
remainder matches `EMAIL_REGEX`. -/
def mailto_candidates (hrefs : List String) : List String :=
  hrefs.filterMap (fun h =>
    if pyStartsWith h "mailto" then
      let addr := pySplitFirst (pyDrop h 7) '?'
      if emailFullmatch addr then some addr else none
    else none)

/-- `extract_emails_from_html` (lines 23-37) after HTML parsing:
`anchorHrefs` holds the `href` of every anchor in document order
(`soup.select` preserves it) and `text` is `soup.get_text(" ")`. -/
def extract_emails_from_html (anchorHrefs : List String) (text : String) :
    List String :=
  dedup (mailto_candidates anchorHrefs ++ findall_emails text)

/-! ## Spec-side definitions used only in theorem statements -/

/-- Strip one leading `www.` (the claim C2 wording for the allowed host;
the source instead uses `lstrip("www.")`). -/
def wwwStrip (s : String) : String :=
  if pyStartsWith s "www." then pyDrop s 4 else s

/-- Modelled from the words of claim C2, for comparison with `same_host`:
both the URL's authority and the allowed host are lower-cased and stripped
of one leading `www.`. -/
def sameHostClaimed (url : String) (allowed_hosts : List String) :
    Except String Bool := do
  let parts ← urlsplit url
  let host := wwwStrip (pyLower parts.netloc)
  pure (allowed_hosts.any (fun allowed =>
    let a := wwwStrip (pyLower allowed)
    host == a || host.endsWith ("." ++ a)))

/-- A link qualifies when it normalizes successfully and passes
`same_host`; used to count a page's distinct qualifying links. -/
def qualNorm (allowed : List String) (href : String) : Option String :=
  match normalize_url href with
  | .ok u =>
    match same_host u allowed with
    | .ok true => some u
    | _ => none
  | .error _ => none

/-- The normalized qualifying links of a page, in document order. -/
def qualURLs (allowed : List String) (hrefs : List String) : List String :=
  hrefs.filterMap (qualNorm allowed)

/-- First-occurrence deduplication relative to an already-seen list (plain
string equality; the accumulator mirrors `collectGo`'s). -/
def dedupFirst (seen : List String) : List String → List String
  | [] => []
  | x :: xs =>
    if x ∈ seen then dedupFirst seen xs
    else x :: dedupFirst (seen ++ [x]) xs

/-- The seen-set accumulated by `_dedup` over a list. -/
def dedupSeen (seen : List String) : List String → List String
  | [] => seen
  | e :: rest =>
    let e' := pyLower e
    if e' ∈ seen then dedupSeen seen rest
    else dedupSeen (e' :: seen) rest

/-- A concrete id/timestamp stream for evaluating the store on examples. -/
def exFresh : Nat → String × String :=
  fun n => ("id" ++ toString n, "ts" ++ toString n)

/-- Placeholder record for `List.getD`. -/
def record0 : Record := { id := "", email := "" }

/-- A page of fifty same-host links (`/p0` … `/p49`). -/
def hrefs50 : List String :=
  (List.range 50).map (fun i => "https://example.com/p" ++ toString i)

/-! # Theorems -/

/-! ## Record store lemmas -/

theorem seen_update_mem (seen : List String) (email x : String) :
    (x ∈ if email ∈ seen then seen else email :: seen) ↔
      (x = email ∨ x ∈ seen) := by
  by_cases h : email ∈ seen
  · simp only [if_pos h]
    constructor
    · intro hx
      exact Or.inr hx
    · intro hx
      rcases hx with hx | hx
      · subst hx
        exact h
      · exact hx
  · simp [if_neg h]

theorem addRecordsGo_spec (m : Meta) (fresh : Nat → String × String) :
    ∀ (emails : List String) (s : Store), ∃ R : List Record,
      (addRecordsGo m fresh emails s).2.records = s.records ++ R ∧
      R.length = emails.length ∧
      R.map Record.email = emails ∧
      (addRecordsGo m fresh emails s).1 = R.filter (fun r => !r.duplicate) ∧
      ∀ i, i < emails.length →
        (R.getD i record0).duplicate =
          decide (emails.getD i "" ∈ s.seen ∨ emails.getD i "" ∈ emails.take i) := by
  intro emails
  induction emails with
  | nil =>
    intro s
    refine ⟨[], by simp [addRecordsGo], rfl, rfl, rfl, ?_⟩
    intro i hi
    simp at hi
  | cons email rest ih =>
    intro s
    obtain ⟨R', h1, h2, h3, h4, h5⟩ := ih
      ⟨s.records ++ [{ id := (fresh s.records.length).1
                       email := email
                       journal := m.journal.getD ""
                       topic := m.topic
                       verified := "unknown"
                       duplicate := decide (email ∈ s.seen)
                       source_url := m.source_url.getD ""
                       timestamp_utc := (fresh s.records.length).2 }],
        if email ∈ s.seen then s.seen else email :: s.seen⟩
    refine ⟨{ id := (fresh s.records.length).1
              email := email
              journal := m.journal.getD ""
              topic := m.topic
              verified := "unknown"
              duplicate := decide (email ∈ s.seen)
              source_url := m.source_url.getD ""
              timestamp_utc := (fresh s.records.length).2 } :: R', ?_, ?_, ?_, ?_, ?_⟩
    · simp only [addRecordsGo]
      rw [h1]
      simp
    · simp [h2]
    · simp [h3]
    · simp only [addRecordsGo]
      rw [h4]
      by_cases hdup : email ∈ s.seen
      · simp [hdup, List.filter_cons]
      · simp [hdup, List.filter_cons]
    · intro i hi
      match i with
      | 0 => simp
      | Nat.succ j =>
        have hj : j < rest.length := by
          simpa using hi
        have h5j := h5 j hj
        simp only [List.getD_cons_succ, List.take_succ_cons]
        rw [h5j]
        simp only [seen_update_mem]
        simp [List.mem_cons]
        rw [Bool.or_assoc, Bool.or_left_comm]

theorem addRecordsGo_new_fields (m : Meta) (fresh : Nat → String × String) :
    ∀ (emails : List String) (s : Store) (r : Record),
      r ∈ (addRecordsGo m fresh emails s).2.records →
      r ∈ s.records ∨
        (r.verified = "unknown" ∧ r.journal = m.journal.getD "" ∧
         r.topic = m.topic ∧ r.source_url = m.source_url.getD "") := by
  intro emails
  induction emails with
  | nil =>
    intro s r h
    left
    simpa [addRecordsGo] using h
  | cons email rest ih =>
    intro s r h
    simp only [addRecordsGo] at h
    rcases ih _ r h with h' | hprops
    · simp only [List.mem_append, List.mem_singleton] at h'
      rcases h' with h' | rfl
      · left
        exact h'
      · right
        exact ⟨rfl, rfl, rfl, rfl⟩
    · right
      exact hprops

/-! ## Claim C8 -/

/-- C8: `add_records(emails, meta)` processes the e-mails in order, appends
exactly one record per input e-mail to the full history (which therefore
grows by `emails.length` and keeps its old prefix), computes each record's
duplicate flag against the seen-set as it stands at that moment (first
occurrence within a call non-duplicate, repeats duplicate), and returns
exactly the records with `duplicate = false`; in particular
`add_records(["a@x.com", "a@x.com"])` on a fresh store appends two records,
marks the second duplicate, and returns exactly one record. -/
theorem C8_add_records_batch :
    ∀ (s : Store) (emails : List String) (meta : Option Meta)
      (fresh : Nat → String × String),
      ((s.add_records emails meta fresh).2.records).take s.records.length = s.records ∧
      ((s.add_records emails meta fresh).2.records).length
        = s.records.length + emails.length ∧
      (((s.add_records emails meta fresh).2.records).drop s.records.length).map
          Record.email = emails ∧
      (s.add_records emails meta fresh).1 =
        (((s.add_records emails meta fresh).2.records).drop s.records.length).filter
          (fun r => !r.duplicate) ∧
      (∀ i, i < emails.length →
        ((((s.add_records emails meta fresh).2.records).drop
            s.records.length).getD i record0).duplicate =
          decide (emails.getD i "" ∈ s.seen ∨ emails.getD i "" ∈ emails.take i)) ∧
      ((Store.empty.add_records ["a@x.com", "a@x.com"] none exFresh).2.records.length = 2 ∧
        (Store.empty.add_records ["a@x.com", "a@x.com"] none exFresh).2.records.map
          Record.duplicate = [false, true] ∧
        (Store.empty.add_records ["a@x.com", "a@x.com"] none exFresh).1.length = 1) := by
  intro s emails meta fresh
  obtain ⟨R, h1, h2, h3, h4, h5⟩ := addRecordsGo_spec (meta.getD {}) fresh emails s
  have hdrop : ((s.add_records emails meta fresh).2.records).drop s.records.length = R := by
    show ((addRecordsGo (meta.getD {}) fresh emails s).2.records).drop s.records.length = R
    rw [h1]
    exact List.drop_left s.records R
  have htake : ((s.add_records emails meta fresh).2.records).take s.records.length
      = s.records := by
    show ((addRecordsGo (meta.getD {}) fresh emails s).2.records).take s.records.length
      = s.records
    rw [h1]
    exact List.take_left s.records R
  refine ⟨htake, ?_, ?_, ?_, ?_, by decide, by decide, by decide⟩
  · show ((addRecordsGo (meta.getD {}) fresh emails s).2.records).length
      = s.records.length + emails.length
    rw [h1]
    simp [h2]
  · rw [hdrop]
    exact h3
  · rw [hdrop]
    exact h4
  · rw [hdrop]
    exact h5

/-- C8 witness: the theorem applied to a fresh store and
`["a@x.com", "a@x.com"]`, with the flag clause instantiated at the second
record. -/
theorem C8_add_records_batch_witness :
    (Store.empty.add_records ["a@x.com", "a@x.com"] none exFresh).2.records.length
      = 0 + 2 ∧
    (((Store.empty.add_records ["a@x.com", "a@x.com"] none
        exFresh).2.records.drop 0).getD 1 record0).duplicate =
      decide (("a@x.com" : String) ∈ ([] : List String) ∨
        ("a@x.com" : String) ∈ ["a@x.com"]) := by
  have h := C8_add_records_batch Store.empty ["a@x.com", "a@x.com"] none exFresh
  exact ⟨h.2.1, h.2.2.2.2.1 1 (by decide)⟩

/-! ## Claim C1 -/

/-- C1 counterexample: dedup in `Store.add_records` is *not*
case-insensitive.  Starting from an empty store, `add_records(["a@x.com"])`
then `add_records(["A@X.com"])`: the claim says the second call returns one
record with `duplicate = true`; the second call's returned record has
`duplicate = false` (and the "newly added" result is in particular not a
single duplicate-flagged record). -/
theorem C1_counterexample :
    ((Store.empty.add_records ["a@x.com"] none exFresh).2.add_records
        ["A@X.com"] none exFresh).1.map Record.duplicate = [false] ∧
    ((Store.empty.add_records ["a@x.com"] none exFresh).2.add_records
        ["A@X.com"] none exFresh).1.map Record.duplicate ≠ [true] := by
  constructor
  · decide
  · decide

/-- C1 amended: store deduplication is global across calls but compares the
raw e-mail string (case-sensitively).  From an empty store,
`add_records(["a@x.com"])` returns one non-duplicate record; a later
`add_records(["A@X.com"])` also returns one record with `duplicate = false`
(the differently-cased address was never seen), with total history length 2;
repeating the identically-cased `"a@x.com"` instead yields `duplicate = true`
and an empty "newly added" result. -/
theorem C1_store_dedup_case_sensitive :
    ((Store.empty.add_records ["a@x.com"] none exFresh).1.map Record.duplicate
        = [false]) ∧
    (((Store.empty.add_records ["a@x.com"] none exFresh).2.add_records
        ["A@X.com"] none exFresh).1.map Record.duplicate = [false]) ∧
    (((Store.empty.add_records ["a@x.com"] none exFresh).2.add_records
        ["A@X.com"] none exFresh).2.records.length = 2) ∧
    ((((Store.empty.add_records ["a@x.com"] none exFresh).2.add_records
        ["A@X.com"] none exFresh).2.add_records ["a@x.com"] none exFresh).1 = []) ∧
    ((((Store.empty.add_records ["a@x.com"] none exFresh).2.add_records
        ["A@X.com"] none exFresh).2.add_records ["a@x.com"] none
        exFresh).2.records.map Record.duplicate = [false, false, true]) := by
  refine ⟨by decide, by decide, by decide, by decide, by decide⟩

/-! ## Claim C10 -/

/-- C10: every record created by `add_records` has `verified = "unknown"`;
`journal` and `source_url` default to the empty string when the
corresponding key is absent from the supplied metadata, while `topic`
defaults to `none` (Python `None`), not the empty string. -/
theorem C10_record_defaults :
    ∀ (s : Store) (emails : List String) (meta : Option Meta)
      (fresh : Nat → String × String) (r : Record),
      r ∈ (s.add_records emails meta fresh).2.records → r ∉ s.records →
      r.verified = "unknown" ∧
      ((meta.getD {}).journal = none → r.journal = "") ∧
      ((meta.getD {}).topic = none → r.topic = none) ∧
      ((meta.getD {}).source_url = none → r.source_url = "") := by
  intro s emails meta fresh r hmem hnot
  rcases addRecordsGo_new_fields (meta.getD {}) fresh emails s r hmem with h | h
  · exact absurd h hnot
  · refine ⟨h.1, ?_, ?_, ?_⟩
    · intro hz
      rw [h.2.1, hz]
      rfl
    · intro hz
      rw [h.2.2.1, hz]
    · intro hz
      rw [h.2.2.2, hz]
      rfl

/-- C10 witness: the sole record created by `add_records(["a@x.com"])` with
no metadata. -/
theorem C10_record_defaults_witness :
    ({ id := "id0", email := "a@x.com", journal := "", topic := none,
       verified := "unknown", duplicate := false, source_url := "",
       timestamp_utc := "ts0" } : Record) ∈
      (Store.empty.add_records ["a@x.com"] none exFresh).2.records ∧
    ({ id := "id0", email := "a@x.com", journal := "", topic := none,
       verified := "unknown", duplicate := false, source_url := "",
       timestamp_utc := "ts0" } : Record) ∉ Store.empty.records ∧
    (({ id := "id0", email := "a@x.com", journal := "", topic := none,
        verified := "unknown", duplicate := false, source_url := "",
        timestamp_utc := "ts0" } : Record).verified = "unknown" ∧
      (((none : Option Meta).getD {}).journal = none →
        ({ id := "id0", email := "a@x.com", journal := "", topic := none,
           verified := "unknown", duplicate := false, source_url := "",
           timestamp_utc := "ts0" } : Record).journal = "") ∧
      (((none : Option Meta).getD {}).topic = none →
        ({ id := "id0", email := "a@x.com", journal := "", topic := none,
           verified := "unknown", duplicate := false, source_url := "",
           timestamp_utc := "ts0" } : Record).topic = none) ∧
      (((none : Option Meta).getD {}).source_url = none →
        ({ id := "id0", email := "a@x.com", journal := "", topic := none,
           verified := "unknown", duplicate := false, source_url := "",
           timestamp_utc := "ts0" } : Record).source_url = "")) := by
  refine ⟨by decide, by decide,
    C10_record_defaults Store.empty ["a@x.com"] none exFresh _ (by decide) (by decide)⟩

/-! ## Except / urlsplit lemmas -/

theorem except_bind_ok {α β : Type} (a : α) (f : α → Except String β) :
    (Except.ok a : Except String α) >>= f = f a := rfl

theorem except_bind_error {α β : Type} (e : String) (f : α → Except String β) :
    (Except.error e : Except String α) >>= f = Except.error e := rfl

theorem mem_splitScheme_snd {c : Char} {cs : List Char}
    (h : c ∈ (splitScheme cs).2) : c ∈ cs := by
  unfold splitScheme at h
  dsimp only [] at h
  split at h
  · exact List.mem_of_mem_drop h
  · exact h

theorem mem_of_preprocessed {c : Char} {l : List Char} {p q : Char → Bool}
    (h : c ∈ (l.dropWhile p).filter q) : c ∈ l :=
  (List.dropWhile_sublist p).mem (List.mem_of_mem_filter h)

theorem exists_ok_ite (c : Prop) [Decidable c] (a b : String) :
    ∃ s, (if c then (pure a : Except String String) else pure b)
      = Except.ok s := by
  by_cases h : c
  · refine ⟨a, ?_⟩
    rw [if_pos h]
    rfl
  · refine ⟨b, ?_⟩
    rw [if_neg h]
    rfl

theorem urlsplit_ok_of_ascii_no_brackets (u : String)
    (hA : ∀ c ∈ u.data, c.toNat < 128) (hL : '[' ∉ u.data) (hR : ']' ∉ u.data) :
    ∃ parts, urlsplit u = Except.ok parts := by
  unfold urlsplit
  dsimp only []
  have hmemrest : ∀ c : Char,
      c ∈ (splitScheme ((u.data.dropWhile (fun c => c.toNat ≤ 32)).filter
        (fun c => c ≠ '\t' && c ≠ '\r' && c ≠ '\n'))).2 → c ∈ u.data := by
    intro c hc
    exact mem_of_preprocessed (mem_splitScheme_snd hc)
  have hmemnl : ∀ c : Char,
      c ∈ ((splitScheme ((u.data.dropWhile (fun c => c.toNat ≤ 32)).filter
          (fun c => c ≠ '\t' && c ≠ '\r' && c ≠ '\n'))).2.drop 2).takeWhile
          (fun c => !isNetlocEnd c) → c ∈ u.data := by
    intro c hc
    exact hmemrest c (List.mem_of_mem_drop ((List.takeWhile_sublist _).mem hc))
  split
  · rw [if_neg, if_neg, if_neg]
    · exact ⟨_, rfl⟩
    · intro hcon
      exact hcon (fun c hc => hA c (hmemnl c hc))
    · rintro ⟨h1, _⟩
      exact hL (hmemnl _ h1)
    · rintro (⟨h1, _⟩ | ⟨h1, _⟩)
      · exact hL (hmemnl _ h1)
      · exact hR (hmemnl _ h1)
  · exact ⟨_, rfl⟩

/-! ## Claim C5 -/

/-- C5 counterexample: `normalize_url` is *not* total over arbitrary
strings; on `"https://["`, `urlsplit` raises
`ValueError("Invalid IPv6 URL")` and `normalize_url` propagates it. -/
theorem C5_counterexample :
    normalize_url "https://[" = Except.error "Invalid IPv6 URL" := by decide

/-- C5 amended: for every ASCII input string containing no square bracket,
`normalize_url` returns a best-effort string and never raises; the only
exceptions it can raise come from `urlsplit`'s bracketed-authority
(`ValueError`) paths. -/
theorem C5_normalize_total_without_brackets (u : String)
    (hA : ∀ c ∈ u.data, c.toNat < 128) (hL : '[' ∉ u.data) (hR : ']' ∉ u.data) :
    ∃ s, normalize_url u = Except.ok s := by
  obtain ⟨parts, hp⟩ := urlsplit_ok_of_ascii_no_brackets u hA hL hR
  unfold normalize_url
  rw [hp, except_bind_ok]
  dsimp only []
  exact exists_ok_ite _ _ _

/-- C5 witness: a concrete ASCII, bracket-free URL. -/
theorem C5_witness :
    (∀ c ∈ ("https://example.com/a?b=c" : String).data, c.toNat < 128) ∧
    ('[' ∉ ("https://example.com/a?b=c" : String).data) ∧
    (']' ∉ ("https://example.com/a?b=c" : String).data) ∧
    (∃ s, normalize_url "https://example.com/a?b=c" = Except.ok s) := by
  refine ⟨by decide, by decide, by decide,
    C5_normalize_total_without_brackets "https://example.com/a?b=c"
      (by decide) (by decide) (by decide)⟩

/-! ## Claim C4 -/

/-- C4: the claimed idempotence `normalize(normalize(u)) = normalize(u)`
fails at `u = "https://host//"`: the `rstrip("/")` step strips *all*
trailing slashes (the spec's algorithm strips exactly one), producing
`"https://host"`, which re-normalizes to `"https://host/"`. -/
theorem C4_normalize_not_idempotent :
    normalize_url "https://host//" = Except.ok "https://host" ∧
    normalize_url "https://host" = Except.ok "https://host/" ∧
    (normalize_url "https://host//").bind normalize_url ≠
      normalize_url "https://host//" := by
  refine ⟨by decide, by decide, by decide⟩

/-! ## Claim C2 -/

/-- C2 counterexample: with allowed host `"web.com"`, the URL
`"https://web.com"` should match under the claim's www-prefix-stripping
rule (`sameHostClaimed`), but `same_host` returns `false`: the source's
`lstrip("www.")` strips the leading `w` of `web.com`, leaving `eb.com`. -/
theorem C2_counterexample :
    same_host "https://web.com" ["web.com"] = Except.ok false ∧
    sameHostClaimed "https://web.com" ["web.com"] = Except.ok true := by
  refine ⟨by decide, by decide⟩

/-- C2 amended: `same_host` returns true exactly when the URL's lower-cased
authority, with one leading `www.` stripped, either equals an allowed host
after that host is stripped of *all leading `'w'` and `'.'` characters*
(Python `lstrip("www.")` semantics, not prefix removal) or ends with `"."`
followed by that stripped host; the claim's two examples hold as stated. -/
theorem C2_same_host_lstrip :
    (∀ (url : String) (hosts : List String) (parts : SplitResult),
      urlsplit url = Except.ok parts →
      (same_host url hosts = Except.ok true ↔
        ∃ a ∈ hosts,
          ((if pyStartsWith (pyLower parts.netloc) "www."
            then pyDrop (pyLower parts.netloc) 4 else pyLower parts.netloc)
              = pyLstrip (pyLower a) "www." ∨
           (pyEndsWith
             (if pyStartsWith (pyLower parts.netloc) "www."
              then pyDrop (pyLower parts.netloc) 4
              else pyLower parts.netloc)
             ("." ++ pyLstrip (pyLower a) "www.")) = true))) ∧
    same_host "https://sub.example.com/x" ["example.com"] = Except.ok true ∧
    same_host "https://evilexample.com" ["example.com"] = Except.ok false := by
  refine ⟨?_, by decide, by decide⟩
  intro url hosts parts hp
  unfold same_host
  rw [hp, except_bind_ok]
  dsimp only []
  constructor
  · intro h
    have h' : hosts.any (fun allowed =>
        (if pyStartsWith (pyLower parts.netloc) "www."
         then pyDrop (pyLower parts.netloc) 4 else pyLower parts.netloc)
          == pyLstrip (pyLower allowed) "www." ||
        pyEndsWith
          (if pyStartsWith (pyLower parts.netloc) "www."
           then pyDrop (pyLower parts.netloc) 4
           else pyLower parts.netloc)
          ("." ++ pyLstrip (pyLower allowed) "www.")) = true := by
      exact Except.ok.inj h
    rw [List.any_eq_true] at h'
    obtain ⟨a, ha, hcond⟩ := h'
    rw [Bool.or_eq_true, beq_iff_eq] at hcond
    exact ⟨a, ha, hcond⟩
  · rintro ⟨a, ha, hcond⟩
    have h' : hosts.any (fun allowed =>
        (if pyStartsWith (pyLower parts.netloc) "www."
         then pyDrop (pyLower parts.netloc) 4 else pyLower parts.netloc)
          == pyLstrip (pyLower allowed) "www." ||
        pyEndsWith
          (if pyStartsWith (pyLower parts.netloc) "www."
           then pyDrop (pyLower parts.netloc) 4
           else pyLower parts.netloc)
          ("." ++ pyLstrip (pyLower allowed) "www.")) = true := by
      rw [List.any_eq_true]
      refine ⟨a, ha, ?_⟩
      rw [Bool.or_eq_true, beq_iff_eq]
      exact hcond
    exact congrArg Except.ok h'

/-- C2 witness: the subdomain example instantiating the equivalence. -/
theorem C2_witness :
    urlsplit "https://sub.example.com/x"
      = Except.ok ⟨"https", "sub.example.com", "/x", "", ""⟩ ∧
    (same_host "https://sub.example.com/x" ["example.com"] = Except.ok true ↔
      ∃ a ∈ ["example.com"],
        ((if pyStartsWith (pyLower "sub.example.com") "www."
          then pyDrop (pyLower "sub.example.com") 4
          else pyLower "sub.example.com")
            = pyLstrip (pyLower a) "www." ∨
         (pyEndsWith
           (if pyStartsWith (pyLower "sub.example.com") "www."
            then pyDrop (pyLower "sub.example.com") 4
            else pyLower "sub.example.com")
           ("." ++ pyLstrip (pyLower a) "www.")) = true)) := by
  refine ⟨by decide, ?_⟩
  exact C2_same_host_lstrip.1 "https://sub.example.com/x" ["example.com"]
    ⟨"https", "sub.example.com", "/x", "", ""⟩ (by decide)

/-! ## Claim C3 -/

/-- C3 counterexample: invoked with the non-positive limit `0`, the
collector does not signal any error condition — it returns a result, here a
one-element list (the size check runs only after the first insertion). -/
theorem C3_counterexample :
    collect_links_from_hrefs ["https://example.com/a"] 0 ["example.com"]
      = Except.ok ["https://example.com/a"] := by decide

theorem collectGo_nonpos (allowed : List String) (limit : Int)
    (hlim : limit ≤ 0) :
    ∀ (hrefs links l : List String),
      collectGo limit allowed hrefs links = Except.ok l →
      l.length ≤ links.length + 1 := by
  intro hrefs
  induction hrefs with
  | nil =>
    intro links l h
    have : links = l := by
      simpa [collectGo] using h
    rw [← this]
    exact Nat.le_succ _
  | cons href rest ih =>
    intro links l h
    simp only [collectGo] at h
    cases hn : normalize_url href with
    | error e =>
      rw [hn, except_bind_error] at h
      exact absurd h (by simp)
    | ok url =>
      rw [hn, except_bind_ok] at h
      cases hs : same_host url allowed with
      | error e =>
        rw [hs, except_bind_error] at h
        exact absurd h (by simp)
      | ok b =>
        rw [hs, except_bind_ok] at h
        cases b with
        | false =>
          simp only [Bool.false_eq_true, if_false] at h
          exact ih links l h
        | true =>
          simp only [if_true] at h
          have hstop : (((if url ∈ links then links else links ++ [url]).length : Int)
              ≥ limit) := by
            calc limit ≤ 0 := hlim
              _ ≤ _ := Int.ofNat_nonneg _
          rw [if_pos hstop] at h
          have : (if url ∈ links then links else links ++ [url]) = l :=
            Except.ok.inj h
          rw [← this]
          by_cases hm : url ∈ links
          · rw [if_pos hm]
            exact Nat.le_succ _
          · rw [if_neg hm]
            simp

/-- C3 amended: `collect_links_qt` performs no validation of `limit`; with a
non-positive limit it signals no error condition and simply returns a
result — a list holding at most one link, because the post-insertion size
check fires as soon as the first qualifying link is added. -/
theorem C3_nonpositive_limit_returns_result :
    ∀ (hrefs : List String) (limit : Int) (allowed l : List String),
      limit ≤ 0 → collect_links_from_hrefs hrefs limit allowed = Except.ok l →
      l.length ≤ 1 := by
  intro hrefs limit allowed l hlim h
  have := collectGo_nonpos allowed limit hlim hrefs [] l h
  simpa using this

/-- C3 witness: limit `0` on a two-link page. -/
theorem C3_witness :
    (0 : Int) ≤ 0 ∧
    collect_links_from_hrefs ["https://example.com/a", "https://example.com/b"]
      0 ["example.com"] = Except.ok ["https://example.com/a"] ∧
    (["https://example.com/a"] : List String).length ≤ 1 := by
  refine ⟨le_refl 0, by decide, ?_⟩
  exact C3_nonpositive_limit_returns_result
    ["https://example.com/a", "https://example.com/b"] 0 ["example.com"]
    ["https://example.com/a"] (by decide) (by decide)

/-! ## Claim C9 -/

/-- C9: when fetching the page HTML from the view raises, the exception is
swallowed (`html` stays `""`) and the collector returns the empty list —
indistinguishable from an empty page. -/
theorem C9_fetch_failure_yields_empty (e : Unit)
    (anchorHrefs : String → List String) (limit : Int) (allowed : List String)
    (hparse : anchorHrefs "" = []) :
    collect_links_qt (Except.error e) anchorHrefs limit allowed = Except.ok [] ∧
    collect_links_qt (Except.error e) anchorHrefs limit allowed =
      collect_links_qt (Except.ok "") anchorHrefs limit allowed := by
  constructor
  · show collect_links_from_hrefs (anchorHrefs "") limit allowed = Except.ok []
    rw [hparse]
    rfl
  · rfl

/-- C9 witness: a parser with no anchors on the empty page. -/
theorem C9_witness :
    ((fun _ => []) : String → List String) "" = ([] : List String) ∧
    collect_links_qt (Except.error ()) (fun _ => []) 5 ["example.com"]
      = Except.ok [] := by
  refine ⟨rfl, ?_⟩
  exact (C9_fetch_failure_yields_empty () (fun _ => []) 5 ["example.com"] rfl).1

/-! ## Collect-loop invariants (claim C7) -/

theorem collectGo_count (allowed : List String) (limit : Int) :
    ∀ (hrefs links l : List String),
      (links.length : Int) < limit →
      collectGo limit allowed hrefs links = Except.ok l →
      (l.length : Int) =
        min limit
          ((links.length +
            (dedupFirst links (List.filterMap (qualNorm allowed) hrefs)).length
              : Nat) : Int) := by
  intro hrefs
  induction hrefs with
  | nil =>
    intro links l hlt h
    have hl : links = l := by
      simpa [collectGo] using h
    subst hl
    simp only [List.filterMap_nil, dedupFirst, List.length_nil, Nat.add_zero]
    rw [min_eq_right (le_of_lt hlt)]
  | cons href rest ih =>
    intro links l hlt h
    simp only [collectGo] at h
    cases hn : normalize_url href with
    | error e =>
      rw [hn, except_bind_error] at h
      exact absurd h (by simp)
    | ok url =>
      rw [hn, except_bind_ok] at h
      cases hs : same_host url allowed with
      | error e =>
        rw [hs, except_bind_error] at h
        exact absurd h (by simp)
      | ok b =>
        rw [hs, except_bind_ok] at h
        cases b with
        | false =>
          simp only [Bool.false_eq_true, if_false] at h
          have hq : qualNorm allowed href = none := by
            simp [qualNorm, hn, hs]
          rw [List.filterMap_cons, hq]
          exact ih links l hlt h
        | true =>
          simp only [if_true] at h
          have hq : qualNorm allowed href = some url := by
            simp [qualNorm, hn, hs]
          rw [List.filterMap_cons, hq]
          by_cases hm : url ∈ links
          · rw [if_pos hm] at h
            have hnostop : ¬ ((links.length : Int) ≥ limit) := by omega
            rw [if_neg hnostop] at h
            simp only [dedupFirst, if_pos hm]
            exact ih links l hlt h
          · rw [if_neg hm] at h
            simp only [dedupFirst, if_neg hm]
            by_cases hstop : (((links ++ [url]).length : Nat) : Int) ≥ limit
            · rw [if_pos hstop] at h
              have hl : links ++ [url] = l := Except.ok.inj h
              have hlen : ((links ++ [url]).length : Nat) = links.length + 1 := by
                simp
              have hlimeq : limit = ((links.length : Int) + 1) := by
                rw [hlen] at hstop
                push_cast at hstop
                omega
              have hle : limit ≤
                  ((links.length +
                    (url :: dedupFirst (links ++ [url])
                      (List.filterMap (qualNorm allowed) rest)).length : Nat) : Int) := by
                simp only [List.length_cons]
                push_cast
                omega
              rw [min_eq_left hle, ← hl, hlen]
              push_cast
              omega
            · rw [if_neg hstop] at h
              have hlt' : (((links ++ [url]).length : Nat) : Int) < limit := by
                omega
              have hih := ih (links ++ [url]) l hlt' h
              rw [hih]
              have hlen : ((links ++ [url]).length +
                  (dedupFirst (links ++ [url])
                    (List.filterMap (qualNorm allowed) rest)).length : Nat) =
                (links.length +
                  (url :: dedupFirst (links ++ [url])
                    (List.filterMap (qualNorm allowed) rest)).length : Nat) := by
                simp
                omega
              rw [hlen]

theorem collectGo_nodup (allowed : List String) (limit : Int) :
    ∀ (hrefs links l : List String),
      links.Nodup →
      collectGo limit allowed hrefs links = Except.ok l → l.Nodup := by
  intro hrefs
  induction hrefs with
  | nil =>
    intro links l hnd h
    have hl : links = l := by
      simpa [collectGo] using h
    subst hl
    exact hnd
  | cons href rest ih =>
    intro links l hnd h
    simp only [collectGo] at h
    cases hn : normalize_url href with
    | error e =>
      rw [hn, except_bind_error] at h
      exact absurd h (by simp)
    | ok url =>
      rw [hn, except_bind_ok] at h
      cases hs : same_host url allowed with
      | error e =>
        rw [hs, except_bind_error] at h
        exact absurd h (by simp)
      | ok b =>
        rw [hs, except_bind_ok] at h
        cases b with
        | false =>
          simp only [Bool.false_eq_true, if_false] at h
          exact ih links l hnd h
        | true =>
          simp only [if_true] at h
          by_cases hm : url ∈ links
          · rw [if_pos hm] at h
            split at h
            · have hl : links = l := Except.ok.inj h
              subst hl
              exact hnd
            · exact ih links l hnd h
          · rw [if_neg hm] at h
            have hnd' : (links ++ [url]).Nodup := by
              simp [List.nodup_append, hnd, hm]
            split at h
            · have hl : links ++ [url] = l := Except.ok.inj h
              subst hl
              exact hnd'
            · exact ih (links ++ [url]) l hnd' h

theorem collectGo_mem (allowed : List String) (limit : Int) :
    ∀ (hrefs links l : List String),
      collectGo limit allowed hrefs links = Except.ok l →
      ∀ u ∈ l, u ∈ links ∨
        ∃ h ∈ hrefs, normalize_url h = Except.ok u ∧
          same_host u allowed = Except.ok true := by
  intro hrefs
  induction hrefs with
  | nil =>
    intro links l h u hu
    have hl : links = l := by
      simpa [collectGo] using h
    subst hl
    exact Or.inl hu
  | cons href rest ih =>
    intro links l h u hu
    simp only [collectGo] at h
    cases hn : normalize_url href with
    | error e =>
      rw [hn, except_bind_error] at h
      exact absurd h (by simp)
    | ok url =>
      rw [hn, except_bind_ok] at h
      cases hs : same_host url allowed with
      | error e =>
        rw [hs, except_bind_error] at h
        exact absurd h (by simp)
      | ok b =>
        rw [hs, except_bind_ok] at h
        cases b with
        | false =>
          simp only [Bool.false_eq_true, if_false] at h
          rcases ih links l h u hu with h' | ⟨x, hx, hprop⟩
          · exact Or.inl h'
          · exact Or.inr ⟨x, List.mem_cons_of_mem _ hx, hprop⟩
        | true =>
          simp only [if_true] at h
          by_cases hm : url ∈ links
          · rw [if_pos hm] at h
            split at h
            · have hl : links = l := Except.ok.inj h
              exact Or.inl (hl ▸ hu)
            · rcases ih links l h u hu with h' | ⟨x, hx, hprop⟩
              · exact Or.inl h'
              · exact Or.inr ⟨x, List.mem_cons_of_mem _ hx, hprop⟩
          · rw [if_neg hm] at h
            split at h
            · have hl : links ++ [url] = l := Except.ok.inj h
              rcases List.mem_append.mp (hl ▸ hu) with h' | h'
              · exact Or.inl h'
              · have hu' : u = url := List.mem_singleton.mp h'
                subst hu'
                exact Or.inr ⟨href, List.mem_cons_self _ _, hn, hs⟩
            · rcases ih (links ++ [url]) l h u hu with h' | ⟨x, hx, hprop⟩
              · rcases List.mem_append.mp h' with h'' | h''
                · exact Or.inl h''
                · have hu' : u = url := List.mem_singleton.mp h''
                  subst hu'
                  exact Or.inr ⟨href, List.mem_cons_self _ _, hn, hs⟩
              · exact Or.inr ⟨x, List.mem_cons_of_mem _ hx, hprop⟩

/-- C7: with a positive limit, link collection never returns more than
`limit` URLs, every returned URL is a normalized link of the page passing
the allowed-host test, the returned URLs are pairwise distinct (duplicates
never count toward the limit), and when the page holds at least `limit`
distinct qualifying links the result has exactly `limit` of them. -/
theorem C7_collect_links_bounded :
    ∀ (allowed hrefs : List String) (limit : Int) (l : List String),
      1 ≤ limit →
      collect_links_from_hrefs hrefs limit allowed = Except.ok l →
      (l.length : Int) ≤ limit ∧
      l.Nodup ∧
      (∀ u ∈ l, ∃ h ∈ hrefs, normalize_url h = Except.ok u ∧
        same_host u allowed = Except.ok true) ∧
      (limit ≤ ((dedupFirst [] (qualURLs allowed hrefs)).length : Int) →
        (l.length : Int) = limit) := by
  intro allowed hrefs limit l hlim h
  have h0 : (([] : List String).length : Int) < limit := by
    simp
    omega
  have hcount := collectGo_count allowed limit hrefs [] l h0 h
  have hD : (dedupFirst [] (qualURLs allowed hrefs)) =
      (dedupFirst [] (List.filterMap (qualNorm allowed) hrefs)) := rfl
  refine ⟨?_, ?_, ?_, ?_⟩
  · rw [hcount]
    exact min_le_left _ _
  · exact collectGo_nodup allowed limit hrefs [] l List.nodup_nil h
  · intro u hu
    rcases collectGo_mem allowed limit hrefs [] l h u hu with h' | h'
    · exact absurd h' (List.not_mem_nil u)
    · exact h'
  · intro hge
    rw [hD] at hge
    rw [hcount]
    rw [min_eq_left]
    push_cast
    omega

/-- C7 witness: fifty same-host links with limit 10 give exactly the first
ten normalized URLs. -/
theorem C7_witness :
    (1 : Int) ≤ 10 ∧
    collect_links_from_hrefs hrefs50 10 ["example.com"] = Except.ok
      ["https://example.com/p0", "https://example.com/p1",
       "https://example.com/p2", "https://example.com/p3",
       "https://example.com/p4", "https://example.com/p5",
       "https://example.com/p6", "https://example.com/p7",
       "https://example.com/p8", "https://example.com/p9"] ∧
    ((["https://example.com/p0", "https://example.com/p1",
       "https://example.com/p2", "https://example.com/p3",
       "https://example.com/p4", "https://example.com/p5",
       "https://example.com/p6", "https://example.com/p7",
       "https://example.com/p8", "https://example.com/p9"].length : Int) ≤ 10 ∧
     (["https://example.com/p0", "https://example.com/p1",
       "https://example.com/p2", "https://example.com/p3",
       "https://example.com/p4", "https://example.com/p5",
       "https://example.com/p6", "https://example.com/p7",
       "https://example.com/p8", "https://example.com/p9"] : List String).Nodup ∧
     (∀ u ∈ (["https://example.com/p0", "https://example.com/p1",
       "https://example.com/p2", "https://example.com/p3",
       "https://example.com/p4", "https://example.com/p5",
       "https://example.com/p6", "https://example.com/p7",
       "https://example.com/p8", "https://example.com/p9"] : List String),
        ∃ h ∈ hrefs50, normalize_url h = Except.ok u ∧
          same_host u ["example.com"] = Except.ok true) ∧
     ((10 : Int) ≤ ((dedupFirst [] (qualURLs ["example.com"] hrefs50)).length : Int) →
       ((["https://example.com/p0", "https://example.com/p1",
         "https://example.com/p2", "https://example.com/p3",
         "https://example.com/p4", "https://example.com/p5",
         "https://example.com/p6", "https://example.com/p7",
         "https://example.com/p8", "https://example.com/p9"].length : Int) = 10))) := by
  have hcoll : collect_links_from_hrefs hrefs50 10 ["example.com"] = Except.ok
      ["https://example.com/p0", "https://example.com/p1",
       "https://example.com/p2", "https://example.com/p3",
       "https://example.com/p4", "https://example.com/p5",
       "https://example.com/p6", "https://example.com/p7",
       "https://example.com/p8", "https://example.com/p9"] := by decide
  exact ⟨by decide, hcoll,
    C7_collect_links_bounded ["example.com"] hrefs50 10 _ (by decide) hcoll⟩

/-! ## `_dedup` lemmas (claim C6) -/

theorem dedupGo_append :
    ∀ (xs ys seen : List String),
      dedupGo seen (xs ++ ys) =
        dedupGo seen xs ++ dedupGo (dedupSeen seen xs) ys := by
  intro xs
  induction xs with
  | nil =>
    intro ys seen
    simp [dedupGo, dedupSeen]
  | cons e xs ih =>
    intro ys seen
    show dedupGo seen (e :: (xs ++ ys)) =
      dedupGo seen (e :: xs) ++ dedupGo (dedupSeen seen (e :: xs)) ys
    simp only [dedupGo, dedupSeen]
    by_cases hm : pyLower e ∈ seen
    · simp only [if_pos hm]
      exact ih ys seen
    · simp only [if_neg hm]
      rw [ih ys (pyLower e :: seen)]
      simp

theorem dedupGo_sound :
    ∀ (xs seen : List String) (e : String),
      e ∈ dedupGo seen xs → e ∉ seen ∧ ∃ x ∈ xs, pyLower x = e := by
  intro xs
  induction xs with
  | nil =>
    intro seen e h
    simp [dedupGo] at h
  | cons y xs ih =>
    intro seen e h
    simp only [dedupGo] at h
    by_cases hm : pyLower y ∈ seen
    · rw [if_pos hm] at h
      obtain ⟨hs, x, hx, hlx⟩ := ih seen e h
      exact ⟨hs, x, List.mem_cons_of_mem _ hx, hlx⟩
    · rw [if_neg hm] at h
      rcases List.mem_cons.mp h with rfl | h
      · exact ⟨hm, y, List.mem_cons_self _ _, rfl⟩
      · obtain ⟨hs, x, hx, hlx⟩ := ih (pyLower y :: seen) e h
        refine ⟨fun hc => hs (List.mem_cons_of_mem _ hc), x,
          List.mem_cons_of_mem _ hx, hlx⟩

theorem dedupGo_complete :
    ∀ (xs seen : List String) (x : String),
      x ∈ xs → pyLower x ∈ seen ∨ pyLower x ∈ dedupGo seen xs := by
  intro xs
  induction xs with
  | nil =>
    intro seen x hx
    simp at hx
  | cons y xs ih =>
    intro seen x hx
    simp only [dedupGo]
    rcases List.mem_cons.mp hx with rfl | hx
    · by_cases hm : pyLower x ∈ seen
      · exact Or.inl hm
      · rw [if_neg hm]
        exact Or.inr (List.mem_cons_self _ _)
    · by_cases hm : pyLower y ∈ seen
      · rw [if_pos hm]
        exact ih seen x hx
      · rw [if_neg hm]
        rcases ih (pyLower y :: seen) x hx with h | h
        · rcases List.mem_cons.mp h with h | h
          · rw [h]
            exact Or.inr (List.mem_cons_self _ _)
          · exact Or.inl h
        · exact Or.inr (List.mem_cons_of_mem _ h)

theorem dedupSeen_mem :
    ∀ (xs seen : List String) (x : String),
      x ∈ xs → pyLower x ∈ dedupSeen seen xs := by
  intro xs
  induction xs with
  | nil =>
    intro seen x hx
    simp at hx
  | cons y xs ih =>
    intro seen x hx
    have hmono : ∀ (zs seen' : List String) (e : String),
        e ∈ seen' → e ∈ dedupSeen seen' zs := by
      intro zs
      induction zs with
      | nil =>
        intro seen' e he
        simpa [dedupSeen] using he
      | cons z zs ihz =>
        intro seen' e he
        simp only [dedupSeen]
        by_cases hm : pyLower z ∈ seen'
        · rw [if_pos hm]
          exact ihz seen' e he
        · rw [if_neg hm]
          exact ihz (pyLower z :: seen') e (List.mem_cons_of_mem _ he)
    rcases List.mem_cons.mp hx with rfl | hx
    · simp only [dedupSeen]
      by_cases hm : pyLower x ∈ seen
      · rw [if_pos hm]
        exact hmono xs seen (pyLower x) hm
      · rw [if_neg hm]
        exact hmono xs (pyLower x :: seen) (pyLower x) (List.mem_cons_self _ _)
    · simp only [dedupSeen]
      by_cases hm : pyLower y ∈ seen
      · rw [if_pos hm]
        exact ih seen x hx
      · rw [if_neg hm]
        exact ih (pyLower y :: seen) x hx

theorem dedupGo_nodup :
    ∀ (xs seen : List String), (dedupGo seen xs).Nodup := by
  intro xs
  induction xs with
  | nil =>
    intro seen
    simp [dedupGo]
  | cons y xs ih =>
    intro seen
    simp only [dedupGo]
    by_cases hm : pyLower y ∈ seen
    · rw [if_pos hm]
      exact ih seen
    · rw [if_neg hm]
      refine List.Nodup.cons ?_ (ih (pyLower y :: seen))
      intro hc
      have := (dedupGo_sound xs (pyLower y :: seen) (pyLower y) hc).1
      exact this (List.mem_cons_self _ _)

/-- C6: email extraction lists the validated `mailto:`-sourced addresses
(lower-cased, first-occurrence-deduplicated, in order) as a prefix of the
result, every result entry is the lower-casing of some candidate, every
validated mailto address occurs in the result, entries after the mailto
segment come only from the visible-text scan, the result has no duplicates,
and the two-mailto fixture (each address also present in the text) yields
exactly `["first@example.com", "second@example.com"]`. -/
theorem C6_extract_precedence :
    ∀ (hrefs : List String) (text : String),
      (extract_emails_from_html hrefs text).Nodup ∧
      (∀ e ∈ extract_emails_from_html hrefs text,
        ∃ x ∈ mailto_candidates hrefs ++ findall_emails text, pyLower x = e) ∧
      (∀ x ∈ mailto_candidates hrefs,
        pyLower x ∈ extract_emails_from_html hrefs text) ∧
      ((extract_emails_from_html hrefs text).take
          (dedup (mailto_candidates hrefs)).length
        = dedup (mailto_candidates hrefs)) ∧
      (∀ b ∈ (extract_emails_from_html hrefs text).drop
          (dedup (mailto_candidates hrefs)).length,
        ¬ ∃ x ∈ mailto_candidates hrefs, pyLower x = b) ∧
      extract_emails_from_html
        ["mailto:first@example.com", "mailto:second@example.com"]
        " first first@example.com second second@example.com "
        = ["first@example.com", "second@example.com"] := by
  intro hrefs text
  have hsplit : extract_emails_from_html hrefs text =
      dedupGo [] (mailto_candidates hrefs) ++
        dedupGo (dedupSeen [] (mailto_candidates hrefs)) (findall_emails text) := by
    show dedupGo [] (mailto_candidates hrefs ++ findall_emails text) = _
    exact dedupGo_append (mailto_candidates hrefs) (findall_emails text) []
  refine ⟨?_, ?_, ?_, ?_, ?_, by decide⟩
  · exact dedupGo_nodup _ []
  · intro e he
    have := dedupGo_sound (mailto_candidates hrefs ++ findall_emails text) [] e he
    exact this.2
  · intro x hx
    rcases dedupGo_complete (mailto_candidates hrefs ++ findall_emails text) []
        x (List.mem_append_left _ hx) with h | h
    · simp at h
    · exact h
  · rw [hsplit]
    have hlen : (dedup (mailto_candidates hrefs)).length =
        (dedupGo [] (mailto_candidates hrefs)).length := rfl
    rw [hlen, List.take_left]
    rfl
  · intro b hb hex
    obtain ⟨x, hx, hlx⟩ := hex
    rw [hsplit] at hb
    have hlen : (dedup (mailto_candidates hrefs)).length =
        (dedupGo [] (mailto_candidates hrefs)).length := rfl
    rw [hlen, List.drop_left] at hb
    have hnotseen := (dedupGo_sound _ _ b hb).1
    have hseen := dedupSeen_mem (mailto_candidates hrefs) [] x hx
    rw [hlx] at hseen
    exact hnotseen hseen

/-- C6 witness: the first mailto address of the fixture is a validated
candidate and appears in the extraction result. -/
theorem C6_witness :
    ("first@example.com" : String) ∈
      mailto_candidates ["mailto:first@example.com", "mailto:second@example.com"] ∧
    pyLower "first@example.com" ∈
      extract_emails_from_html
        ["mailto:first@example.com", "mailto:second@example.com"]
        " first first@example.com second second@example.com " := by
  refine ⟨by decide, ?_⟩
  exact (C6_extract_precedence
      ["mailto:first@example.com", "mailto:second@example.com"]
      " first first@example.com second second@example.com ").2.2.1
    "first@example.com" (by decide)

end SSApp